import Mathlib

/-!
Verification of `package/cleanup-list.py` (archlinux/contrib).

The script classifies orphan packages of a binary distribution into
"unneeded" and "still required".  We embed the pure core of the script:

* `parse_desc`   — the block-text parser for `desc`/`depends` records;
* `parse_repo`   — the repository database reader (over an abstract
  archive: the tarfile plumbing is replaced by a list of named entries);
* `find_unneeded_orphans`, `what_requires`, and the classification loop
  of `main` — the orphan classifier.

Python strings are Lean `String`s; the Python string methods used by the
script (`strip`, `startswith`/`endswith`, `lower`, slicing, `split(c)[0]`,
`in`) are modelled on the character list `String.toList`.  Python sets of
strings are `Finset String`; Python dicts are association lists updated
in insertion order.  A Python `KeyError` that the script does not catch
is modelled by `Option`/`Except` results.
-/

namespace CleanupList

/-- Python `c in s` for a single character: membership in the character list. -/
def strContains (s : String) (c : Char) : Bool :=
  s.toList.contains c

/-- Python `s.split(c)[0]`: the prefix of `s` strictly before the first
occurrence of `c`; the whole string when `c` does not occur. -/
def splitHead (s : String) (c : Char) : String :=
  (s.toList.takeWhile (· ≠ c)).asString

/-- Python whitespace, as stripped by `str.strip()`. -/
def isPySpace (c : Char) : Bool :=
  c == ' ' || c == '\t' || c == '\n' || c == '\r' || c == '\x0b' || c == '\x0c'

/-- Python `s.strip()`: remove leading and trailing whitespace. -/
def pyStrip (s : String) : String :=
  (((s.toList.dropWhile isPySpace).reverse.dropWhile isPySpace).reverse).asString

/-- Python `s.lower()` (ASCII case, which is all the record format uses). -/
def pyLower (s : String) : String :=
  (s.toList.map Char.toLower).asString

/-- Python `s.startswith("%") and s.endswith("%")`, the block-marker test of
`parse_desc`. -/
def isBlockMarker (s : String) : Bool :=
  s.toList.head? == some '%' && s.toList.getLast? == some '%'

/-- Python `s[1:-1]`: drop the first and last character. -/
def sliceInner (s : String) : String :=
  ((s.toList.drop 1).dropLast).asString

/-- The store built by `parse_desc`: a Python dict from block name to list of
value lines, kept in insertion order. -/
abbrev Store := List (String × List String)

/-- Python `store[k] = v`: overwrite in place if the key exists, else append. -/
def storeSet (store : Store) (k : String) (v : List String) : Store :=
  if store.any (fun q => q.1 = k) then
    store.map (fun q => if q.1 = k then (k, v) else q)
  else
    store ++ [(k, v)]

/-- Python `store[k].append(line)` (the key is present whenever called). -/
def storeAppend (store : Store) (k : String) (line : String) : Store :=
  store.map (fun q => if q.1 = k then (q.1, q.2 ++ [line]) else q)

/-- Python `store[k]` as a lookup, `None` when the key is absent. -/
def storeGet (store : Store) (k : String) : Option (List String) :=
  (store.find? (fun q => q.1 = k)).map (fun q => q.2)

/-- The body of the `for line in iofile` loop of `parse_desc`.  The state is
the dict built so far plus the current block name (`none` before the first
marker; Python treats the empty name as falsy too, via `elif blockname:`). -/
def descStep (st : Store × Option String) (rawline : String) :
    Store × Option String :=
  let line := pyStrip rawline
  if line.toList = [] then st
  else if isBlockMarker line then
    let name := pyLower (sliceInner line)
    (storeSet st.1 name [], some name)
  else
    match st.2 with
    | some b => if b.toList = [] then st else (storeAppend st.1 b line, st.2)
    | none => st

/-- The function `parse_desc`: parse the lines of a record into a block store. -/
def parse_desc (lines : List String) : Store :=
  (lines.foldl descStep ([], none)).1

/-! ## Repository database reader (`parse_repo`) -/

/-- One member of a repository archive: a name, whether it is a directory,
and (for files) its text content as lines. -/
structure TarEntry where
  name : String
  isdir : Bool
  lines : List String
deriving DecidableEq

/-- A repository database: the members of the tar archive, in order. -/
abbrev Archive := List TarEntry

/-- Python `repodb.getmember(n)`, except that the uncaught `KeyError` is an
`Option`: look a member up by exact name. -/
def getmember (a : Archive) (n : String) : Option TarEntry :=
  a.find? (fun e => e.name = n)

/-- The four dependency fields of `pkgfields`. -/
inductive DepKey
  | depends
  | makedepends
  | optdepends
  | checkdepends
deriving DecidableEq

/-- The tuple `pkgfields = ("depends", "makedepends", "optdepends",
"checkdepends")`, in source order. -/
def pkgfields : List DepKey :=
  [.depends, .makedepends, .optdepends, .checkdepends]

/-- The record-format name of a dependency field. -/
def DepKey.str : DepKey → String
  | .depends => "depends"
  | .makedepends => "makedepends"
  | .optdepends => "optdepends"
  | .checkdepends => "checkdepends"

/-- The dict `pkgs[pkgname]` while `parse_repo` builds it: the four
dependency keys may be absent (`none`), exactly as in the Python dict. -/
structure PkgRaw where
  repo : String
  arch : String
  pkgbase : Option String
  dependsF : Option (Finset String)
  makedependsF : Option (Finset String)
  optdependsF : Option (Finset String)
  checkdependsF : Option (Finset String)
deriving DecidableEq

/-- Python `pkgs[pkgname][key]` for a dependency key (`none` = key absent). -/
def PkgRaw.get (p : PkgRaw) : DepKey → Option (Finset String)
  | .depends => p.dependsF
  | .makedepends => p.makedependsF
  | .optdepends => p.optdependsF
  | .checkdepends => p.checkdependsF

/-- Python `pkgs[pkgname][key] = v` for a dependency key. -/
def PkgRaw.set (p : PkgRaw) (k : DepKey) (v : Option (Finset String)) : PkgRaw :=
  match k with
  | .depends => { p with dependsF := v }
  | .makedepends => { p with makedependsF := v }
  | .optdepends => { p with optdependsF := v }
  | .checkdepends => { p with checkdependsF := v }

/-- The loop `for key in pkgfields: if key in desc: pkgs[pkgname][key] = set(desc[key])`. -/
def initFields (desc : Store) (p : PkgRaw) : PkgRaw :=
  pkgfields.foldl
    (fun p k =>
      match storeGet desc k.str with
      | some v => p.set k (some v.toFinset)
      | none => p)
    p

/-- The merge loop over a parsed `depends` record:
`pkgs[pkgname][key].update(depends[key])`, falling back to assignment when
the key was absent (the inner `except KeyError`). -/
def mergeFields (dep : Store) (p : PkgRaw) : PkgRaw :=
  pkgfields.foldl
    (fun p k =>
      match storeGet dep k.str with
      | some v =>
        match p.get k with
        | some s => p.set k (some (s ∪ v.toFinset))
        | none => p.set k (some v.toFinset)
      | none => p)
    p

/-- Python `optdep.split(":")[0]`: drop the description after the first colon. -/
def stripOptDesc (optdep : String) : String :=
  splitHead optdep ':'

/-- Python `dep.split(ch)[0] if ch in dep else dep`: one pass of the
version-requirement removal. -/
def stripOne (dep : String) (ch : Char) : String :=
  if strContains dep ch then splitHead dep ch else dep

/-- The loop `for ch in ("<", ">", "="): tmp = {... for dep in tmp}`: the three
sequential set-comprehension passes over one dependency set. -/
def stripVersionSet (s : Finset String) : Finset String :=
  ((s.image (stripOne · '<')).image (stripOne · '>')).image (stripOne · '=')

/-- The two normalization steps of `parse_repo`: remove descriptions from
optional dependencies, then remove version requirements from every present
dependency field. -/
def normalizeFields (p : PkgRaw) : PkgRaw :=
  let p :=
    match p.optdependsF with
    | some s => { p with optdependsF := some (s.image stripOptDesc) }
    | none => p
  pkgfields.foldl
    (fun p k =>
      match p.get k with
      | some s => p.set k (some (stripVersionSet s))
      | none => p)
    p

/-- The loop `for key in pkgfields: if key not in pkgs[pkgname]: pkgs[pkgname][key] = set()`. -/
def fillFields (p : PkgRaw) : PkgRaw :=
  pkgfields.foldl
    (fun p k =>
      match p.get k with
      | some _ => p
      | none => p.set k (some ∅))
    p

/-- The required header of a metadata record: `desc["name"][0]`,
`desc["arch"].pop()` and the optional `desc["base"][0]`.  A missing or empty
`name`/`arch` block is a fatal `KeyError`/`IndexError`, as is an empty
`base` block. -/
def descHeader (desc : Store) :
    Except String (String × String × Option String) :=
  match storeGet desc "name" with
  | none => .error "KeyError: name"
  | some [] => .error "IndexError: name"
  | some (nm :: _) =>
    match storeGet desc "arch" with
    | none => .error "KeyError: arch"
    | some [] => .error "IndexError: pop from empty list"
    | some (av :: avs) =>
      match storeGet desc "base" with
      | some [] => .error "IndexError: base"
      | baseVals => .ok (nm, (av :: avs).getLastD av, baseVals.bind List.head?)

/-- Processing of one package directory `pkgid` inside `parse_repo`: extract
and parse `pkgid/desc` (a missing or malformed record is a fatal
`KeyError`/`IndexError`), optionally merge `pkgid/depends` (its absence is
caught and ignored), then normalize and fill the dependency fields. -/
def parsePkgDir (reponame : String) (a : Archive) (pkgid : String) :
    Except String (String × PkgRaw) :=
  match getmember a (pkgid ++ "/desc") with
  | none => .error "KeyError: desc member missing"
  | some descEntry =>
    let desc := parse_desc descEntry.lines
    match descHeader desc with
    | .error msg => .error msg
    | .ok (nm, ar, pb) =>
      let p : PkgRaw :=
        { repo := reponame
          arch := ar
          pkgbase := pb
          dependsF := none
          makedependsF := none
          optdependsF := none
          checkdependsF := none }
      let p := initFields desc p
      let p :=
        match getmember a (pkgid ++ "/depends") with
        | some depEntry => mergeFields (parse_desc depEntry.lines) p
        | none => p
      .ok (nm, fillFields (normalizeFields p))

/-- Python `m[k] = v` on a dict kept as an insertion-ordered association
list: overwrite in place if the key exists, else append. -/
def dictSet {α : Type} (m : List (String × α)) (k : String) (v : α) :
    List (String × α) :=
  if m.any (fun q => q.1 = k) then
    m.map (fun q => if q.1 = k then (k, v) else q)
  else
    m ++ [(k, v)]

/-- The member loop of `parse_repo`: process each directory entry in archive
order, accumulating the package dict; any error aborts the repository. -/
def parseRepoGo (reponame : String) (a : Archive) :
    List TarEntry → List (String × PkgRaw) →
    Except String (List (String × PkgRaw))
  | [], pkgs => .ok pkgs
  | e :: rest, pkgs =>
    if e.isdir then
      match parsePkgDir reponame a e.name with
      | .error msg => .error msg
      | .ok (nm, p) => parseRepoGo reponame a rest (dictSet pkgs nm p)
    else
      parseRepoGo reponame a rest pkgs

/-- The function `parse_repo`: read a repository database into a name-keyed package dict
(the repository name, extracted from the path in Python, is a parameter). -/
def parse_repo (reponame : String) (a : Archive) :
    Except String (List (String × PkgRaw)) :=
  parseRepoGo reponame a a []

/-! ## Orphan classifier -/

/-- A package as the classifier sees it after `parse_repo`: all four
dependency fields present. -/
structure Pkg where
  depends : Finset String
  makedepends : Finset String
  optdepends : Finset String
  checkdepends : Finset String
deriving DecidableEq

/-- The union of all four dependency fields, as enumerated by the
comprehension in `find_unneeded_orphans`. -/
def allFields (p : Pkg) : Finset String :=
  p.depends ∪ p.makedepends ∪ p.optdepends ∪ p.checkdepends

/-- The union of the three `deptypes` of `what_requires` — optional
dependencies excluded. -/
def hardFields (p : Pkg) : Finset String :=
  p.depends ∪ p.makedepends ∪ p.checkdepends

/-- The set `required` of `find_unneeded_orphans`: every name referenced by
any of the four dependency fields of any package. -/
def allDeps (pkgs : List (String × Pkg)) : Finset String :=
  pkgs.foldr (fun q acc => allFields q.2 ∪ acc) ∅

/-- The function `find_unneeded_orphans`: orphans referenced by no dependency at all. -/
def find_unneeded_orphans (pkgs : List (String × Pkg)) (orphans : Finset String) :
    Finset String :=
  orphans \ allDeps pkgs

/-- The function `what_requires`: the packages whose hard-dependency fields name
`pkgname`. -/
def what_requires (pkgs : List (String × Pkg)) (pkgname : String) :
    Finset String :=
  pkgs.foldr
    (fun q acc => if pkgname ∈ hardFields q.2 then insert q.1 acc else acc) ∅

/-- Python `packages[n]`, with the uncaught `KeyError` as `none`. -/
def lookupPkg (pkgs : List (String × Pkg)) (n : String) : Option Pkg :=
  (pkgs.find? (fun q => q.1 = n)).map (fun q => q.2)

/-- The classification loop of `main` over the iteration order `order` of
the set `archweb_orphans - unneeded` (computed once, before the loop).  For
each orphan the script first evaluates `packages[orphan]`, so an orphan
missing from the index raises `KeyError` (`none`); otherwise the orphan goes
to `unneeded` when its hard requirers all are orphans, and into the
still-required mapping with its requirer set otherwise. -/
def classifyLoop (pkgs : List (String × Pkg)) (orphans : Finset String) :
    List String → Finset String → List (String × Finset String) →
    Option (Finset String × List (String × Finset String))
  | [], unneeded, required => some (unneeded, required)
  | o :: rest, unneeded, required =>
    match lookupPkg pkgs o with
    | none => none
    | some _ =>
      let rb := what_requires pkgs o
      if rb ⊆ orphans then
        classifyLoop pkgs orphans rest (insert o unneeded) required
      else
        classifyLoop pkgs orphans rest unneeded (required ++ [(o, rb)])

/-- The classification part of `main`: the initial `unneeded` set from
`find_unneeded_orphans`, then the loop over the remaining orphans (in the
set-iteration order `order`).  Returns `none` when the script would die with
a `KeyError`. -/
def classify (pkgs : List (String × Pkg)) (orphans : Finset String)
    (order : List String) :
    Option (Finset String × List (String × Finset String)) :=
  classifyLoop pkgs orphans order (find_unneeded_orphans pkgs orphans) []

/-- The key set of the still-required mapping. -/
def keysFinset (r : List (String × Finset String)) : Finset String :=
  (r.map Prod.fst).toFinset

/-- The test of step 3b as a Boolean: every hard requirer of `o` is an
orphan. -/
def orphanOnlyReq (pkgs : List (String × Pkg)) (orphans : Finset String)
    (o : String) : Bool :=
  decide (what_requires pkgs o ⊆ orphans)

/-! ## Helper lemmas about the classifier -/

theorem mem_allDeps {pkgs : List (String × Pkg)} {x : String} :
    x ∈ allDeps pkgs ↔ ∃ q ∈ pkgs, x ∈ allFields q.2 := by
  induction pkgs with
  | nil => simp [allDeps]
  | cons q rest ih =>
    simp only [allDeps, List.foldr_cons, Finset.mem_union] at ih ⊢
    rw [ih]
    simp only [List.mem_cons]
    constructor
    · rintro (h | ⟨a, ha, hx⟩)
      · exact ⟨q, Or.inl rfl, h⟩
      · exact ⟨a, Or.inr ha, hx⟩
    · rintro ⟨a, ha | ha, hx⟩
      · subst ha; exact Or.inl hx
      · exact Or.inr ⟨a, ha, hx⟩

theorem mem_what_requires {pkgs : List (String × Pkg)} {n x : String} :
    x ∈ what_requires pkgs n ↔ ∃ q ∈ pkgs, q.1 = x ∧ n ∈ hardFields q.2 := by
  induction pkgs with
  | nil => simp [what_requires]
  | cons q rest ih =>
    simp only [what_requires, List.foldr_cons] at ih ⊢
    by_cases h : n ∈ hardFields q.2 <;> simp [h, ih] <;> tauto

theorem lookupPkg_isSome {pkgs : List (String × Pkg)} {n : String} :
    (lookupPkg pkgs n).isSome ↔ ∃ q ∈ pkgs, q.1 = n := by
  induction pkgs with
  | nil => simp [lookupPkg]
  | cons q rest ih =>
    by_cases h : q.1 = n <;>
      simp [lookupPkg, List.find?_cons, h] at ih ⊢ <;> tauto

theorem classifyLoop_eq_none {pkgs : List (String × Pkg)}
    {orphans : Finset String} {order : List String} {o : String}
    (ho : o ∈ order) (hnone : lookupPkg pkgs o = none) :
    ∀ un req, classifyLoop pkgs orphans order un req = none := by
  induction order with
  | nil => cases ho
  | cons a rest ih =>
    intro un req
    rcases List.mem_cons.mp ho with h | h
    · subst h
      simp [classifyLoop, hnone]
    · cases ha : lookupPkg pkgs a with
      | none => simp [classifyLoop, ha]
      | some p =>
        simp only [classifyLoop, ha]
        by_cases hsub : what_requires pkgs a ⊆ orphans <;>
          simp [hsub, ih h]

theorem classifyLoop_eq_some {pkgs : List (String × Pkg)}
    {orphans : Finset String} {order : List String}
    (h : ∀ o ∈ order, lookupPkg pkgs o ≠ none) :
    ∀ un req, classifyLoop pkgs orphans order un req =
      some (un ∪ (order.filter (orphanOnlyReq pkgs orphans)).toFinset,
        req ++ (order.filter fun o => !(orphanOnlyReq pkgs orphans o)).map
          fun o => (o, what_requires pkgs o)) := by
  induction order with
  | nil => intro un req; simp [classifyLoop]
  | cons a rest ih =>
    intro un req
    have ha : lookupPkg pkgs a ≠ none := h a (List.mem_cons_self a rest)
    obtain ⟨p, hp⟩ := Option.ne_none_iff_exists'.mp ha
    have hrest : ∀ o ∈ rest, lookupPkg pkgs o ≠ none :=
      fun o ho => h o (List.mem_cons_of_mem a ho)
    by_cases hsub : what_requires pkgs a ⊆ orphans
    · simp only [classifyLoop, hp, hsub, if_pos, ih hrest]
      rw [List.filter_cons_of_pos, List.filter_cons_of_neg]
      · simp only [List.toFinset_cons, Option.some_inj]
        rw [Finset.insert_union, Finset.union_insert]
      · simp [orphanOnlyReq, hsub]
      · simp [orphanOnlyReq, hsub]
    · simp only [classifyLoop, hp, hsub, if_neg, not_false_iff, ih hrest]
      rw [List.filter_cons_of_neg, List.filter_cons_of_pos]
      · simp
      · simp [orphanOnlyReq, hsub]
      · simp [orphanOnlyReq, hsub]

/-- The partition of the loop set induced by the step-3b test. -/
theorem filter_toFinset_partition (p : String → Bool) (order : List String) :
    (order.filter p).toFinset ∪ (order.filter fun o => !(p o)).toFinset =
      order.toFinset := by
  ext x
  simp only [Finset.mem_union, List.mem_toFinset, List.mem_filter,
    Bool.not_eq_true']
  by_cases hx : p x = true <;> simp [hx]

/-- Inversion of a completed run of the classification loop: every processed
orphan was found in the index, the final `unneeded` set is the initial one
plus every loop orphan whose hard requirers all are orphans, and the
still-required mapping lists the remaining loop orphans with their requirer
sets. -/
theorem classify_some_inv {pkgs : List (String × Pkg)}
    {orphans : Finset String} {order : List String}
    {u : Finset String} {r : List (String × Finset String)}
    (hres : classify pkgs orphans order = some (u, r)) :
    (∀ o ∈ order, lookupPkg pkgs o ≠ none) ∧
    u = find_unneeded_orphans pkgs orphans ∪
      (order.filter (orphanOnlyReq pkgs orphans)).toFinset ∧
    r = (order.filter fun o => !(orphanOnlyReq pkgs orphans o)).map
      fun o => (o, what_requires pkgs o) := by
  have hlk : ∀ o ∈ order, lookupPkg pkgs o ≠ none := by
    intro o ho hnone
    rw [classify, classifyLoop_eq_none ho hnone] at hres
    cases hres
  rw [classify, classifyLoop_eq_some hlk] at hres
  simp only [List.nil_append, Option.some_inj, Prod.mk.injEq] at hres
  exact ⟨hlk, hres.1.symm, hres.2.symm⟩

theorem keysFinset_of_some {pkgs : List (String × Pkg)}
    {orphans : Finset String} {order : List String}
    {u : Finset String} {r : List (String × Finset String)}
    (hres : classify pkgs orphans order = some (u, r)) :
    keysFinset r =
      (order.filter fun o => !(orphanOnlyReq pkgs orphans o)).toFinset := by
  obtain ⟨-, -, hr⟩ := classify_some_inv hres
  rw [keysFinset, hr, List.map_map]
  congr 1
  exact List.map_id _

theorem hardFields_subset_allFields (p : Pkg) : hardFields p ⊆ allFields p := by
  intro x hx
  simp only [hardFields, Finset.mem_union] at hx
  simp only [allFields, Finset.mem_union]
  tauto

/-- An orphan referenced by nobody has no hard requirers. -/
theorem what_requires_empty_of_not_mem_allDeps {pkgs : List (String × Pkg)}
    {o : String} (h : o ∉ allDeps pkgs) : what_requires pkgs o = ∅ := by
  ext x
  simp only [Finset.not_mem_empty, iff_false]
  intro hx
  obtain ⟨q, hq, hq1, hq2⟩ := mem_what_requires.mp hx
  exact h (mem_allDeps.mpr ⟨q, hq, hardFields_subset_allFields q.2 hq2⟩)

/-! ## Claim theorems -/

/-- C1. For every dependency index and every orphan name set, when the
classifier completes, its two results partition the orphan set: the
`unneeded` set united with the keys of the still-required mapping equals the
orphan set, and the two are disjoint.  (`order` is the iteration order of
the Python set `archweb_orphans - unneeded`, which the loop ranges over.) -/
theorem classifier_partitions_orphans (pkgs : List (String × Pkg))
    (orphans : Finset String) (order : List String)
    (u : Finset String) (r : List (String × Finset String))
    (horder : order.toFinset = orphans \ find_unneeded_orphans pkgs orphans)
    (hres : classify pkgs orphans order = some (u, r)) :
    u ∪ keysFinset r = orphans ∧ Disjoint u (keysFinset r) := by
  obtain ⟨hlk, hu, -⟩ := classify_some_inv hres
  have hkeys := keysFinset_of_some hres
  have hA : (order.filter (orphanOnlyReq pkgs orphans)).toFinset ⊆
      order.toFinset := by
    rw [List.toFinset_filter]
    exact Finset.filter_subset _ _
  have hB : keysFinset r ⊆ order.toFinset := by
    rw [hkeys, List.toFinset_filter]
    exact Finset.filter_subset _ _
  have hun0 : find_unneeded_orphans pkgs orphans ⊆ orphans :=
    Finset.sdiff_subset
  constructor
  · rw [hu, hkeys, Finset.union_assoc,
      filter_toFinset_partition (orphanOnlyReq pkgs orphans) order, horder,
      Finset.union_sdiff_of_subset hun0]
  · rw [hu, Finset.disjoint_union_left]
    constructor
    · exact Finset.disjoint_of_subset_right (hB.trans (le_of_eq horder))
        Finset.disjoint_sdiff
    · rw [hkeys]
      rw [Finset.disjoint_left]
      intro x hx hx2
      simp only [List.mem_toFinset, List.mem_filter, Bool.not_eq_true'] at hx hx2
      rw [hx.2] at hx2
      cases hx2.2

/-- C10. The classifier is deterministic and order-independent: a completed
run yields the same `unneeded` set and the same still-required mapping (as a
set of pairs) for any iteration order enumerating the same orphans, and each
orphan's classification is characterized by the index and the orphan set
alone — `o` ends up unneeded iff nobody references it at all, or every hard
requirer of `o` is an orphan (whether or not those requirers themselves end
up classified still-required). -/
theorem classifier_order_independent (pkgs : List (String × Pkg))
    (orphans : Finset String) (order₁ order₂ : List String)
    (u₁ : Finset String) (r₁ : List (String × Finset String))
    (hset : order₁.toFinset = order₂.toFinset)
    (h1 : classify pkgs orphans order₁ = some (u₁, r₁)) :
    ∃ u₂ r₂, classify pkgs orphans order₂ = some (u₂, r₂) ∧ u₂ = u₁ ∧
      keysFinset r₂ = keysFinset r₁ ∧ (∀ pr, pr ∈ r₂ ↔ pr ∈ r₁) ∧
      (∀ o, o ∈ u₁ ↔ o ∈ find_unneeded_orphans pkgs orphans ∨
        (o ∈ order₁.toFinset ∧ what_requires pkgs o ⊆ orphans)) := by
  obtain ⟨hlk₁, hu₁, hr₁⟩ := classify_some_inv h1
  have hmem : ∀ o : String, o ∈ order₂ ↔ o ∈ order₁ := by
    intro o
    rw [← List.mem_toFinset, ← List.mem_toFinset (l := order₁), hset]
  have hlk₂ : ∀ o ∈ order₂, lookupPkg pkgs o ≠ none :=
    fun o ho => hlk₁ o ((hmem o).mp ho)
  refine ⟨_, _, by rw [classify, classifyLoop_eq_some hlk₂, List.nil_append],
    ?_, ?_, ?_, ?_⟩
  · rw [hu₁, List.toFinset_filter, List.toFinset_filter, hset]
  · rw [keysFinset_of_some h1]
    simp only [keysFinset, List.map_map]
    have : (List.map (Prod.fst ∘ fun o => (o, what_requires pkgs o))
        (order₂.filter fun o => !(orphanOnlyReq pkgs orphans o))) =
        order₂.filter fun o => !(orphanOnlyReq pkgs orphans o) :=
      List.map_id _
    rw [this, List.toFinset_filter, List.toFinset_filter, hset]
  · intro pr
    rw [hr₁]
    simp only [List.mem_map, List.mem_filter]
    constructor
    · rintro ⟨o, ⟨ho, hpo⟩, rfl⟩
      exact ⟨o, ⟨(hmem o).mp ho, hpo⟩, rfl⟩
    · rintro ⟨o, ⟨ho, hpo⟩, rfl⟩
      exact ⟨o, ⟨(hmem o).mpr ho, hpo⟩, rfl⟩
  · intro o
    rw [hu₁]
    simp only [Finset.mem_union, List.mem_toFinset, List.mem_filter,
      orphanOnlyReq, decide_eq_true_eq]

/-- C2. An orphan present in the index that is referenced only through
`optdepends` fields survives the initial `allDeps` filter (optional
dependencies count there), has an empty hard-requirer set (`what_requires`
ignores optional dependencies), and is therefore classified unneeded, the
empty set being a subset of any orphan set. -/
theorem optdep_only_orphan_unneeded (pkgs : List (String × Pkg))
    (orphans : Finset String) (order : List String) (o : String)
    (u : Finset String) (r : List (String × Finset String))
    (ho : o ∈ orphans)
    (hidx : lookupPkg pkgs o ≠ none)
    (hopt : ∃ q ∈ pkgs, o ∈ q.2.optdepends)
    (hhard : ∀ q ∈ pkgs, o ∉ hardFields q.2)
    (horder : order.toFinset = orphans \ find_unneeded_orphans pkgs orphans)
    (hres : classify pkgs orphans order = some (u, r)) :
    o ∉ find_unneeded_orphans pkgs orphans ∧
    what_requires pkgs o = ∅ ∧ o ∈ u := by
  obtain ⟨q, hq, hqopt⟩ := hopt
  have hall : o ∈ allDeps pkgs := by
    refine mem_allDeps.mpr ⟨q, hq, ?_⟩
    simp only [allFields, Finset.mem_union]
    tauto
  have hnotun0 : o ∉ find_unneeded_orphans pkgs orphans := by
    simp only [find_unneeded_orphans, Finset.mem_sdiff, not_and, not_not]
    intro; exact hall
  have hwr : what_requires pkgs o = ∅ := by
    ext x
    simp only [Finset.not_mem_empty, iff_false]
    intro hx
    obtain ⟨q2, hq2, -, hq2h⟩ := mem_what_requires.mp hx
    exact hhard q2 hq2 hq2h
  refine ⟨hnotun0, hwr, ?_⟩
  obtain ⟨-, hu, -⟩ := classify_some_inv hres
  rw [hu, Finset.mem_union]
  right
  rw [List.mem_toFinset, List.mem_filter]
  constructor
  · rw [← List.mem_toFinset, horder, Finset.mem_sdiff]
    exact ⟨ho, hnotun0⟩
  · simp only [orphanOnlyReq, decide_eq_true_eq, hwr]
    exact Finset.empty_subset _

/-- C3. In an index where orphan `Y` hard-depends on orphan `X`, nothing
(hard or optional) depends on `Y`, and no package other than `Y` hard-
requires `X`, a completed run classifies both as unneeded: `Y` through the
initial `O - allDeps` step, `X` because its requirer set is contained in
`{Y}`, hence in the orphan set. -/
theorem orphan_chain_both_unneeded (pkgs : List (String × Pkg))
    (orphans : Finset String) (order : List String) (X Y : String)
    (u : Finset String) (r : List (String × Finset String))
    (hX : X ∈ orphans) (hY : Y ∈ orphans)
    (hYX : ∃ pY, (Y, pY) ∈ pkgs ∧ X ∈ hardFields pY)
    (hYfree : ∀ q ∈ pkgs, Y ∉ allFields q.2)
    (hXonly : ∀ q ∈ pkgs, X ∈ hardFields q.2 → q.1 = Y)
    (horder : order.toFinset = orphans \ find_unneeded_orphans pkgs orphans)
    (hres : classify pkgs orphans order = some (u, r)) :
    X ∈ u ∧ Y ∈ u := by
  obtain ⟨-, hu, -⟩ := classify_some_inv hres
  obtain ⟨pY, hpY, hpYX⟩ := hYX
  have hXall : X ∈ allDeps pkgs :=
    mem_allDeps.mpr ⟨(Y, pY), hpY, hardFields_subset_allFields pY hpYX⟩
  have hXnotun0 : X ∉ find_unneeded_orphans pkgs orphans := by
    simp only [find_unneeded_orphans, Finset.mem_sdiff, not_and, not_not]
    intro; exact hXall
  constructor
  · rw [hu, Finset.mem_union]
    right
    rw [List.mem_toFinset, List.mem_filter]
    constructor
    · rw [← List.mem_toFinset, horder, Finset.mem_sdiff]
      exact ⟨hX, hXnotun0⟩
    · simp only [orphanOnlyReq, decide_eq_true_eq]
      intro x hx
      obtain ⟨q, hq, hq1, hq2⟩ := mem_what_requires.mp hx
      have := hXonly q hq hq2
      rw [← hq1, this]
      exact hY
  · rw [hu, Finset.mem_union]
    left
    simp only [find_unneeded_orphans, Finset.mem_sdiff]
    refine ⟨hY, fun hYall => ?_⟩
    obtain ⟨q, hq, hqY⟩ := mem_allDeps.mp hYall
    exact hYfree q hq hqY

/-- The index of the C4 counterexample: one maintained package `p` that
hard-depends on the orphan `o`, while `o` itself is not in the index. -/
def pkgRefO : Pkg := ⟨{"o"}, ∅, ∅, ∅⟩

/-- C4 counterexample.  The orphan `o` is absent from the index but
referenced by the indexed package `p`, so `o` is not in the initial
`unneeded` set; the loop then evaluates `packages["o"]`, which is a
`KeyError`: the classifier fails (`none`) instead of classifying `o` as
unneeded.  (The first conjunct certifies that `["o"]` really is the loop's
iteration set.) -/
theorem absent_orphan_counterexample :
    (["o"] : List String).toFinset =
      ({"o"} : Finset String) \ find_unneeded_orphans [("p", pkgRefO)] {"o"} ∧
    lookupPkg [("p", pkgRefO)] "o" = none ∧
    classify [("p", pkgRefO)] {"o"} ["o"] = none :=
  ⟨rfl, rfl, rfl⟩

/-- C4 (amended).  An orphan name absent from the Dependency Index is
tolerated only when no indexed package references it in any dependency
field: then it has no requirers, lands in the initial `unneeded` set, and
every completed run classifies it unneeded.  If instead some indexed package
references it, the run fails with a `KeyError` rather than classifying it. -/
theorem absent_orphan_behavior (pkgs : List (String × Pkg))
    (orphans : Finset String) (order : List String) (o : String) :
    (o ∈ orphans → o ∉ allDeps pkgs →
      o ∈ find_unneeded_orphans pkgs orphans ∧ what_requires pkgs o = ∅ ∧
      ∀ u r, classify pkgs orphans order = some (u, r) → o ∈ u) ∧
    (o ∈ orphans → o ∈ allDeps pkgs → lookupPkg pkgs o = none →
      order.toFinset = orphans \ find_unneeded_orphans pkgs orphans →
      classify pkgs orphans order = none) := by
  constructor
  · intro ho hnall
    refine ⟨Finset.mem_sdiff.mpr ⟨ho, hnall⟩,
      what_requires_empty_of_not_mem_allDeps hnall, fun u r hres => ?_⟩
    obtain ⟨-, hu, -⟩ := classify_some_inv hres
    rw [hu, Finset.mem_union]
    exact Or.inl (Finset.mem_sdiff.mpr ⟨ho, hnall⟩)
  · intro ho hall hnone horder
    have homem : o ∈ order := by
      rw [← List.mem_toFinset, horder, Finset.mem_sdiff]
      refine ⟨ho, ?_⟩
      simp only [find_unneeded_orphans, Finset.mem_sdiff, not_and, not_not]
      intro; exact hall
    rw [classify]
    exact classifyLoop_eq_none homem hnone _ _

/-! ## Witnesses -/

/-- Index for the C1 witness: maintained `A` depends on orphan `B`. -/
def pkgA1 : Pkg := ⟨{"B"}, ∅, ∅, ∅⟩

/-- Orphan `B` of the C1 witness. -/
def pkgB1 : Pkg := ⟨∅, ∅, ∅, ∅⟩

theorem classifier_partitions_orphans_witness :
    (∅ : Finset String) ∪ keysFinset [("B", ({"A"} : Finset String))] =
      {"B"} ∧
    Disjoint (∅ : Finset String)
      (keysFinset [("B", ({"A"} : Finset String))]) :=
  classifier_partitions_orphans [("A", pkgA1), ("B", pkgB1)] {"B"} ["B"]
    ∅ [("B", {"A"})] rfl rfl

/-- Packages of the C10 witness: maintained `M` hard-requires orphan `X`,
which hard-requires orphan `Y`. -/
def pkgM0 : Pkg := ⟨{"X"}, ∅, ∅, ∅⟩

/-- Orphan `X` of the C10 witness. -/
def pkgX0 : Pkg := ⟨{"Y"}, ∅, ∅, ∅⟩

/-- Orphan `Y` of the C10 witness. -/
def pkgY0 : Pkg := ⟨∅, ∅, ∅, ∅⟩

theorem classifier_order_independent_witness :
    ∃ u₂ r₂,
      classify [("M", pkgM0), ("X", pkgX0), ("Y", pkgY0)] {"X", "Y"}
          ["Y", "X"] = some (u₂, r₂) ∧
      u₂ = {"Y"} ∧
      keysFinset r₂ = keysFinset [("X", ({"M"} : Finset String))] ∧
      (∀ pr, pr ∈ r₂ ↔ pr ∈ [("X", ({"M"} : Finset String))]) ∧
      (∀ o, o ∈ ({"Y"} : Finset String) ↔
        o ∈ find_unneeded_orphans
            [("M", pkgM0), ("X", pkgX0), ("Y", pkgY0)] {"X", "Y"} ∨
        (o ∈ (["X", "Y"] : List String).toFinset ∧
          what_requires [("M", pkgM0), ("X", pkgX0), ("Y", pkgY0)] o ⊆
            {"X", "Y"})) :=
  classifier_order_independent [("M", pkgM0), ("X", pkgX0), ("Y", pkgY0)]
    {"X", "Y"} ["X", "Y"] ["Y", "X"] {"Y"} [("X", {"M"})]
    (by ext x; simp [List.toFinset_cons]; tauto) rfl

/-- Packages of the C2 witness: `q` references orphan `o` only through
`optdepends`; `o` itself is indexed. -/
def pkgQ2 : Pkg := ⟨∅, ∅, {"o"}, ∅⟩

/-- Orphan `o` of the C2 witness. -/
def pkgO2 : Pkg := ⟨∅, ∅, ∅, ∅⟩

theorem optdep_only_orphan_unneeded_witness :
    "o" ∉ find_unneeded_orphans [("q", pkgQ2), ("o", pkgO2)] {"o"} ∧
    what_requires [("q", pkgQ2), ("o", pkgO2)] "o" = ∅ ∧
    "o" ∈ ({"o"} : Finset String) :=
  optdep_only_orphan_unneeded [("q", pkgQ2), ("o", pkgO2)] {"o"} ["o"] "o"
    {"o"} [] (by decide) (fun h => Option.noConfusion h)
    ⟨("q", pkgQ2), List.mem_cons_self _ _, by decide⟩ (by decide) rfl rfl

/-- Orphan `X` of the C3 witness, hard-required only by orphan `Y`. -/
def pkgX3 : Pkg := ⟨∅, ∅, ∅, ∅⟩

/-- Orphan `Y` of the C3 witness, required by nobody. -/
def pkgY3 : Pkg := ⟨{"X"}, ∅, ∅, ∅⟩

theorem orphan_chain_both_unneeded_witness :
    "X" ∈ ({"X", "Y"} : Finset String) ∧ "Y" ∈ ({"X", "Y"} : Finset String) :=
  orphan_chain_both_unneeded [("X", pkgX3), ("Y", pkgY3)] {"X", "Y"} ["X"]
    "X" "Y" {"X", "Y"} [] (by decide) (by decide)
    ⟨pkgY3, List.mem_cons_of_mem _ (List.mem_cons_self _ _), by decide⟩
    (by decide) (by decide) rfl rfl

theorem absent_orphan_behavior_witness :
    ("o" ∈ find_unneeded_orphans ([] : List (String × Pkg)) {"o"} ∧
      what_requires ([] : List (String × Pkg)) "o" = ∅ ∧
      "o" ∈ ({"o"} : Finset String)) ∧
    classify [("p", pkgRefO)] {"o"} ["o"] = none := by
  constructor
  · have h := (absent_orphan_behavior [] {"o"} [] "o").1 (by decide) (by decide)
    exact ⟨h.1, h.2.1, h.2.2 {"o"} [] rfl⟩
  · exact (absent_orphan_behavior [("p", pkgRefO)] {"o"} ["o"] "o").2
      (by decide) (by decide) rfl rfl

/-! ## Normalization of dependency strings (C5, C6) -/

/-- Spec side: one of the three version-constraint characters. -/
def isConstraintChar (c : Char) : Bool :=
  c == '<' || c == '>' || c == '='

/-- Spec side: "the substring before its first constraint character" (the
whole string when no constraint character occurs). -/
def bareName (s : String) : String :=
  (s.toList.takeWhile fun c => !(isConstraintChar c)).asString

theorem toList_asString (l : List Char) : (List.asString l).toList = l := rfl

theorem asString_toList (s : String) : List.asString s.toList = s := rfl

/-- Each pass of the version strip is a plain prefix-take, whether or not
the character occurs. -/
theorem stripOne_eq_takeWhile (s : String) (c : Char) :
    stripOne s c = (s.toList.takeWhile fun a => a ≠ c).asString := by
  rw [stripOne, splitHead]
  by_cases h : strContains s c = true
  · rw [if_pos h]
  · rw [if_neg h]
    rw [strContains] at h
    have hall : ∀ a ∈ s.toList, (fun a => decide (a ≠ c)) a = true := by
      intro a ha
      simp only [decide_eq_true_eq]
      intro hac
      subst hac
      exact h (List.elem_iff.mpr ha)
    rw [List.takeWhile_eq_self_iff.mpr hall, asString_toList]

/-- Three successive prefix-takes, one per constraint character, take the
prefix before the first constraint character of any kind. -/
theorem takeWhile_three (l : List Char) :
    ((l.takeWhile fun a => a ≠ '<').takeWhile fun a => a ≠ '>').takeWhile
        (fun a => a ≠ '=') =
      l.takeWhile fun c => !(isConstraintChar c) := by
  rw [List.takeWhile_takeWhile, List.takeWhile_takeWhile]
  congr 1
  funext c
  by_cases h1 : c = '<' <;> by_cases h2 : c = '>' <;> by_cases h3 : c = '=' <;>
    simp [h1, h2, h3, isConstraintChar]

/-- The sequential `<`, `>`, `=` passes, composed on one entry, yield the
substring before the first constraint character. -/
theorem stripOne_chain (s : String) :
    stripOne (stripOne (stripOne s '<') '>') '=' = bareName s := by
  rw [stripOne_eq_takeWhile, stripOne_eq_takeWhile, stripOne_eq_takeWhile,
    bareName, toList_asString, toList_asString, takeWhile_three]

/-- C5.  The three sequential version-constraint passes map every entry of a
dependency set to the substring before its first constraint character
(`bareName`), and an entry containing none of `<`, `>`, `=` passes through
unchanged. -/
theorem version_strip_correct :
    (∀ s : Finset String, stripVersionSet s = s.image bareName) ∧
    (∀ d : String, (∀ c ∈ d.toList, isConstraintChar c = false) →
      bareName d = d) := by
  constructor
  · intro s
    rw [stripVersionSet, Finset.image_image, Finset.image_image]
    congr 1
    funext d
    exact stripOne_chain d
  · intro d h
    rw [bareName]
    have hall : ∀ c ∈ d.toList, (fun c => !(isConstraintChar c)) c = true := by
      intro c hc
      rw [Bool.not_eq_true', h c hc]
    rw [List.takeWhile_eq_self_iff.mpr hall, asString_toList]

theorem version_strip_correct_witness :
    stripVersionSet {"foo>=1.2", "bar<3", "baz=1.0"} =
      ({"foo>=1.2", "bar<3", "baz=1.0"} : Finset String).image bareName ∧
    bareName "plain" = "plain" ∧
    stripVersionSet {"foo>=1.2", "bar<3", "baz=1.0"} =
      {"foo", "bar", "baz"} :=
  ⟨version_strip_correct.1 {"foo>=1.2", "bar<3", "baz=1.0"},
    version_strip_correct.2 "plain" (by decide), rfl⟩

/-- C6.  Optional-dependency normalization takes every entry to the
substring before its first colon, leaves colon-free entries unchanged, and
is applied (inside `normalizeFields`, before the version strip) to every
entry of every package's `optdepends` set. -/
theorem optdep_strip_correct :
    (∀ s : String, (stripOptDesc s).toList =
      s.toList.takeWhile fun c => c ≠ ':') ∧
    (∀ s : String, (∀ c ∈ s.toList, c ≠ ':') → stripOptDesc s = s) ∧
    (∀ (p : PkgRaw) (s : Finset String), p.optdependsF = some s →
      (normalizeFields p).optdependsF =
        some (stripVersionSet (s.image stripOptDesc))) := by
  refine ⟨fun s => rfl, ?_, ?_⟩
  · intro s h
    rw [stripOptDesc, splitHead]
    have hall : ∀ a ∈ s.toList, (fun a => decide (a ≠ ':')) a = true := by
      intro a ha
      simp only [decide_eq_true_eq]
      exact h a ha
    rw [List.takeWhile_eq_self_iff.mpr hall, asString_toList]
  · rintro ⟨re, ar, pb, d, m, o, c⟩ s h
    cases h
    cases d <;> cases m <;> cases c <;> rfl

theorem optdep_strip_correct_witness :
    stripOptDesc "nocolon" = "nocolon" ∧
    (normalizeFields
        ⟨"core", "x86_64", none, none, none,
          some {"foo: some description"}, none⟩).optdependsF =
      some (stripVersionSet
        (({"foo: some description"} : Finset String).image stripOptDesc)) ∧
    stripOptDesc "foo: some description" = "foo" :=
  ⟨optdep_strip_correct.2.1 "nocolon" (by decide),
    optdep_strip_correct.2.2
      ⟨"core", "x86_64", none, none, none,
        some {"foo: some description"}, none⟩
      {"foo: some description"} rfl, rfl⟩

/-! ## Block-text parser (C7) -/

/-- A line that strips to nothing leaves the parser state untouched: blank
lines are skipped and do not terminate the current block. -/
theorem descStep_blank (st : Store × Option String) (l : String)
    (h : pyStrip l = "") : descStep st l = st := by
  have h' : (pyStrip l).data = [] := by rw [h]
  simp [descStep, h']

/-- Inserting a blank line anywhere in the input leaves `parse_desc`'s fold
unchanged. -/
theorem foldl_descStep_blank (l : String) (h : pyStrip l = "") :
    ∀ (pre post : List String) (st : Store × Option String),
      (pre ++ l :: post).foldl descStep st = (pre ++ post).foldl descStep st := by
  intro pre
  induction pre with
  | nil =>
    intro post st
    simp only [List.nil_append, List.foldl_cons, descStep_blank st l h]
  | cons a t ih =>
    intro post st
    simp only [List.cons_append, List.foldl_cons]
    exact ih post (descStep st a)

/-- C7.  The block-text parser: parsing the record
`"%NAME%\nval1\nval2\n\n%OTHER%\nval3"` yields
`{"name": ["val1","val2"], "other": ["val3"]}` (markers open lowercased
blocks, non-blank lines are appended in order); blank lines are skipped
wherever they occur without terminating a block; and non-blank, non-marker
lines before the first marker are ignored. -/
theorem parse_desc_correct :
    parse_desc ["%NAME%", "val1", "val2", "", "%OTHER%", "val3"] =
      [("name", ["val1", "val2"]), ("other", ["val3"])] ∧
    (∀ (pre post : List String) (st : Store × Option String) (l : String),
      pyStrip l = "" →
      (pre ++ l :: post).foldl descStep st = (pre ++ post).foldl descStep st) ∧
    (∀ (l : String) (rest : List String), pyStrip l ≠ "" →
      isBlockMarker (pyStrip l) = false →
      parse_desc (l :: rest) = parse_desc rest) := by
  refine ⟨rfl, fun pre post st l h => foldl_descStep_blank l h pre post st,
    fun l rest h hm => ?_⟩
  have h' : ¬((pyStrip l).toList = []) := by
    intro hnil
    exact h (String.ext hnil)
  rw [parse_desc, parse_desc, List.foldl_cons]
  congr 1
  simp [descStep, h', hm]

theorem parse_desc_correct_witness :
    ((["%A%"] ++ ["  "] ++ ["v"]) : List String).foldl descStep ([], none) =
      ((["%A%"] ++ ["v"]) : List String).foldl descStep ([], none) ∧
    parse_desc ["junk", "%A%", "v"] = parse_desc ["%A%", "v"] :=
  ⟨parse_desc_correct.2.1 ["%A%"] ["v"] ([], none) "  " (by decide),
    parse_desc_correct.2.2 "junk" ["%A%", "v"] (by decide) (by decide)⟩

/-! ## Repository reader invariants (C8, C9) -/

/-- After the fill step, every dependency key holds a set. -/
theorem fillFields_isSome (p : PkgRaw) (k : DepKey) :
    ((fillFields p).get k).isSome = true := by
  rcases p with ⟨re, ar, pb, d, m, o, c⟩
  cases d <;> cases m <;> cases o <;> cases c <;> cases k <;> rfl

/-- Every package record produced by `parsePkgDir` went through the fill
step. -/
theorem parsePkgDir_fields {reponame : String} {a : Archive} {pkgid : String}
    {nm : String} {p : PkgRaw}
    (h : parsePkgDir reponame a pkgid = .ok (nm, p)) :
    ∀ k, (p.get k).isSome = true := by
  intro k
  unfold parsePkgDir at h
  cases hdesc : getmember a (pkgid ++ "/desc") with
  | none => rw [hdesc] at h; cases h
  | some de =>
    rw [hdesc] at h
    dsimp only at h
    cases hhd : descHeader (parse_desc de.lines) with
    | error msg => rw [hhd] at h; cases h
    | ok hd =>
      obtain ⟨nm0, ar, pb⟩ := hd
      rw [hhd] at h
      cases hdep : getmember a (pkgid ++ "/depends") with
      | none =>
        rw [hdep] at h
        simp only [Except.ok.injEq, Prod.mk.injEq] at h
        obtain ⟨-, rfl⟩ := h
        exact fillFields_isSome _ k
      | some depE =>
        rw [hdep] at h
        simp only [Except.ok.injEq, Prod.mk.injEq] at h
        obtain ⟨-, rfl⟩ := h
        exact fillFields_isSome _ k

/-- A dict update adds the new binding and touches nothing else. -/
theorem mem_dictSet {α : Type} {m : List (String × α)} {k : String} {v : α}
    {q : String × α} (h : q ∈ dictSet m k v) : q ∈ m ∨ q = (k, v) := by
  rw [dictSet] at h
  split at h
  · obtain ⟨q', hq', hq⟩ := List.mem_map.mp h
    by_cases hk : q'.1 = k
    · rw [if_pos hk] at hq
      exact Or.inr hq.symm
    · rw [if_neg hk] at hq
      exact Or.inl (hq ▸ hq')
  · rcases List.mem_append.mp h with h | h
    · exact Or.inl h
    · exact Or.inr (List.mem_singleton.mp h)

theorem parseRepoGo_fields {reponame : String} {a : Archive} :
    ∀ (entries : List TarEntry) (pkgs ps : List (String × PkgRaw)),
      (∀ q ∈ pkgs, ∀ k, (q.2.get k).isSome = true) →
      parseRepoGo reponame a entries pkgs = .ok ps →
      ∀ q ∈ ps, ∀ k, (q.2.get k).isSome = true := by
  intro entries
  induction entries with
  | nil =>
    intro pkgs ps hinv h
    rw [parseRepoGo] at h
    cases h
    exact hinv
  | cons e rest ih =>
    intro pkgs ps hinv h
    rw [parseRepoGo] at h
    split at h
    · split at h
      · cases h
      · rename_i nm p hpd
        refine ih _ _ ?_ h
        intro q hq k
        rcases mem_dictSet hq with hq | rfl
        · exact hinv q hq k
        · exact parsePkgDir_fields hpd k
    · exact ih _ _ hinv h

/-- C8.  Every package entity in the mapping returned by the repository
reader has all four dependency fields present (bound to a set, possibly
empty) — none is ever left unset. -/
theorem parse_repo_fields_present (reponame : String) (a : Archive)
    (ps : List (String × PkgRaw)) (h : parse_repo reponame a = .ok ps) :
    ∀ q ∈ ps, ∀ k, (q.2.get k).isSome = true :=
  parseRepoGo_fields a [] ps (fun q hq => absurd hq (List.not_mem_nil q)) h

/-- Archive of the C8 witness: one package directory with both records. -/
def archC8 : Archive :=
  [⟨"pkgdir", true, []⟩,
   ⟨"pkgdir/desc", false,
     ["%NAME%", "foo", "%ARCH%", "x86_64", "%DEPENDS%", "bar>=1.2"]⟩,
   ⟨"pkgdir/depends", false, ["%MAKEDEPENDS%", "baz=1.0"]⟩]

theorem parse_repo_fields_present_witness :
    (((⟨"core", "x86_64", none, some {"bar"}, some {"baz"}, some ∅,
        some ∅⟩ : PkgRaw)).get DepKey.depends).isSome = true :=
  parse_repo_fields_present "core" archC8
    [("foo",
      ⟨"core", "x86_64", none, some {"bar"}, some {"baz"}, some ∅, some ∅⟩)]
    rfl
    ("foo",
      ⟨"core", "x86_64", none, some {"bar"}, some {"baz"}, some ∅, some ∅⟩)
    (List.mem_cons_self _ _) DepKey.depends

/-- A package directory whose `desc` member is missing makes `parsePkgDir`
fail with the uncaught `KeyError` of `getmember`. -/
theorem parsePkgDir_missing_desc {reponame : String} {a : Archive}
    {pkgid : String} (h : getmember a (pkgid ++ "/desc") = none) :
    parsePkgDir reponame a pkgid = .error "KeyError: desc member missing" := by
  unfold parsePkgDir
  rw [h]

/-- A failing package directory aborts the whole repository read. -/
theorem parseRepoGo_error {reponame : String} {a : Archive} {msg : String} :
    ∀ (entries : List TarEntry) (pkgs : List (String × PkgRaw)) (e : TarEntry),
      e ∈ entries → e.isdir = true →
      parsePkgDir reponame a e.name = .error msg →
      ∃ m, parseRepoGo reponame a entries pkgs = .error m := by
  intro entries
  induction entries with
  | nil => intro pkgs e he; cases he
  | cons e0 rest ih =>
    intro pkgs e he hdir herr
    rw [parseRepoGo]
    rcases List.mem_cons.mp he with rfl | he
    · rw [if_pos hdir, herr]
      exact ⟨msg, rfl⟩
    · by_cases hd0 : e0.isdir = true
      · rw [if_pos hd0]
        cases hpd : parsePkgDir reponame a e0.name with
        | error m => exact ⟨m, rfl⟩
        | ok v =>
          obtain ⟨nm, p⟩ := v
          exact ih _ e he hdir herr
      · rw [if_neg hd0]
        exact ih _ e he hdir herr

/-- C9.  A listed package directory without a `desc` record aborts the
repository read (the `KeyError` propagates), while a missing sibling
`depends` record is caught: the directory still parses, and its package
record is built from the metadata record alone (no build-time dependency is
merged in). -/
theorem missing_desc_fatal_missing_depends_tolerated (reponame : String)
    (a : Archive) :
    (∀ e ∈ a, e.isdir = true →
      getmember a (e.name ++ "/desc") = none →
      ∃ m, parse_repo reponame a = .error m) ∧
    (∀ (pkgid : String) (de : TarEntry) (nm ar : String) (pb : Option String),
      getmember a (pkgid ++ "/desc") = some de →
      descHeader (parse_desc de.lines) = .ok (nm, ar, pb) →
      getmember a (pkgid ++ "/depends") = none →
      parsePkgDir reponame a pkgid = .ok (nm,
        fillFields (normalizeFields (initFields (parse_desc de.lines)
          { repo := reponame, arch := ar, pkgbase := pb, dependsF := none,
            makedependsF := none, optdependsF := none,
            checkdependsF := none })))) := by
  constructor
  · intro e he hdir hdesc
    rw [parse_repo]
    exact parseRepoGo_error a [] e he hdir (parsePkgDir_missing_desc hdesc)
  · intro pkgid de nm ar pb hdesc hhd hdep
    unfold parsePkgDir
    rw [hdesc]
    dsimp only
    rw [hhd, hdep]

/-- Archive of the C9 witness, second part: a package directory with a
well-formed `desc` record and no `depends` record. -/
def archC9 : Archive :=
  [⟨"pkgdir", true, []⟩,
   ⟨"pkgdir/desc", false, ["%NAME%", "foo", "%ARCH%", "x86_64"]⟩]

theorem missing_desc_fatal_witness :
    (∃ m, parse_repo "core" [⟨"pkgdir", true, []⟩] = .error m) ∧
    parsePkgDir "core" archC9 "pkgdir" = .ok ("foo",
      fillFields (normalizeFields (initFields
        (parse_desc ["%NAME%", "foo", "%ARCH%", "x86_64"])
        ⟨"core", "x86_64", none, none, none, none, none⟩))) := by
  constructor
  · exact (missing_desc_fatal_missing_depends_tolerated "core"
      [⟨"pkgdir", true, []⟩]).1 ⟨"pkgdir", true, []⟩
      (List.mem_cons_self _ _) rfl rfl
  · exact (missing_desc_fatal_missing_depends_tolerated "core" archC9).2
      "pkgdir" ⟨"pkgdir/desc", false, ["%NAME%", "foo", "%ARCH%", "x86_64"]⟩
      "foo" "x86_64" none rfl rfl rfl

end CleanupList
